import Mathlib

/-!
Verification of the signal-to-position backtest engine and the
performance-analysis code of the STOCK_MARKET repository.

The embedding follows `src/strategy/base_strategy.py` (`BaseStrategy.backtest`
and `BaseStrategy.calculate_performance`) and the trade-pairing /
win-rate loop of `src/run_macd_strategy.py` (`main`).  Prices and cash are
rationals, signals are integers, share counts are integers (Python `int`),
and the two-state position machine (`current_position`) is a `Bool`.
-/

namespace StockMarket

/-- One bar of the aligned price/signal series: the closing price (column
`收盘`) and the trading signal (column `信号`) attached to it. -/
structure Bar where
  close : ℚ
  signal : ℤ
  deriving DecidableEq, Repr

/-- Python `int()` applied to a rational number: truncation toward zero. -/
def pyInt (q : ℚ) : ℤ := if 0 ≤ q then ⌊q⌋ else ⌈q⌉

/-- The running state of `BaseStrategy.backtest`: the cash column `资金`,
the share column `持仓`, and the loop variable `current_position`
(`false` = 0 = flat, `true` = 1 = long). -/
structure BtState where
  cash : ℚ
  shares : ℤ
  pos : Bool
  deriving DecidableEq, Repr

/-- One row of the produced portfolio timeline: columns `资金` (cash),
`持仓` (shares held), `持仓价值` (position value) and `总资产`
(total equity). -/
structure PortfolioRow where
  cash : ℚ
  shares : ℤ
  posValue : ℚ
  equity : ℚ
  deriving DecidableEq, Repr

/-- The loop body of `BaseStrategy.backtest` for a bar `i ≥ 1`.  The code
first carries `资金`/`持仓` forward from bar `i-1` (here: the incoming
state `s`), then, on signal `+1` while flat, buys
`shares_to_buy = int(available_capital / price)` whole shares when that is
positive, and on signal `-1` while long sells the whole position when it
is positive; in every other case the carried values stand. -/
def btStep (s : BtState) (b : Bar) : BtState :=
  if b.signal = 1 ∧ s.pos = false then
    let sharesToBuy : ℤ := pyInt (s.cash / b.close)
    if 0 < sharesToBuy then
      { cash := s.cash - (sharesToBuy : ℚ) * b.close
        shares := sharesToBuy
        pos := true }
    else s
  else if b.signal = -1 ∧ s.pos = true then
    if 0 < s.shares then
      { cash := s.cash + (s.shares : ℚ) * b.close
        shares := 0
        pos := false }
    else s
  else s

/-- The row written for a bar `i ≥ 1` after the transition: the code sets
`持仓价值 = 持仓 * price` and `总资产 = 资金 + 持仓价值`. -/
def mkRow (s : BtState) (close : ℚ) : PortfolioRow :=
  { cash := s.cash
    shares := s.shares
    posValue := (s.shares : ℚ) * close
    equity := s.cash + (s.shares : ℚ) * close }

/-- The rows written by the backtest loop for the bars after bar 0,
threading the state through `btStep`. -/
def btRows (s : BtState) : List Bar → List PortfolioRow
  | [] => []
  | b :: rest => mkRow (btStep s b) b.close :: btRows (btStep s b) rest

/-- The state the backtest starts from: `cash = initial_capital`,
`持仓 = 0`, `current_position = 0`. -/
def initState (initialCapital : ℚ) : BtState :=
  { cash := initialCapital, shares := 0, pos := false }

/-- The full portfolio timeline of `BaseStrategy.backtest`.  Bar 0 keeps its
initialized row (`资金 = 总资产 = initial_capital`, `持仓 = 持仓价值 = 0`);
the loop runs over bars `1 .. n-1`. -/
def backtest (initialCapital : ℚ) : List Bar → List PortfolioRow
  | [] => []
  | _b0 :: rest =>
    { cash := initialCapital, shares := 0, posValue := 0, equity := initialCapital }
      :: btRows (initState initialCapital) rest

/-- The total-return computation of `BaseStrategy.calculate_performance`:
`(final_capital - initial_capital) / initial_capital * 100`. -/
def totalReturn (initialCapital finalCapital : ℚ) : ℚ :=
  (finalCapital - initialCapital) / initialCapital * 100

/-- The annualized-return computation of `BaseStrategy.calculate_performance`.
Dates are modelled as integer day numbers, so
`days = (self.data.index[-1] - self.data.index[0]).days` is their
difference.  Python evaluates `365 / days` before the power
`(final_capital / initial_capital) ** (365 / days)`; when `days = 0` this
raises `ZeroDivisionError`, modelled as `Except.error`.  On success the
base and the exponent of the power are returned (its real-valued power
itself is not needed by any claim). -/
def annualReturnCalc (firstDate lastDate : ℤ) (initialCapital finalCapital : ℚ) :
    Except String (ℚ × ℚ) :=
  let days : ℤ := lastDate - firstDate
  if days = 0 then Except.error "ZeroDivisionError: division by zero"
  else Except.ok (finalCapital / initialCapital, 365 / (days : ℚ))

/-- Running maximum of a list continuing from an already-seen maximum `m`. -/
def cummaxFrom (m : ℚ) : List ℚ → List ℚ
  | [] => []
  | x :: xs => max m x :: cummaxFrom (max m x) xs

/-- The pandas `cummax` used on the `总资产` column
(`self.data['累计最大资产']`). -/
def cummax : List ℚ → List ℚ
  | [] => []
  | x :: xs => x :: cummaxFrom x xs

/-- The drawdown column `回撤`:
`(总资产 - 累计最大资产) / 累计最大资产 * 100` at every bar. -/
def drawdowns (es : List ℚ) : List ℚ :=
  List.zipWith (fun e p => (e - p) / p * 100) es (cummax es)

/-- Minimum of a list, `none` on the empty list (pandas `.min()`). -/
def listMin : List ℚ → Option ℚ
  | [] => none
  | x :: xs => some (xs.foldl min x)

/-- The `max_drawdown` metric: the minimum of the drawdown column. -/
def maxDrawdown (es : List ℚ) : Option ℚ :=
  listMin (drawdowns es)

/-- Maximum of the first `i+1` elements of a list (used to state what the
running peak at bar `i` is); `0` on the empty list, which never arises. -/
def prefixMax : List ℚ → ℕ → ℚ
  | [], _ => 0
  | x :: xs, i => (xs.take i).foldl max x

/-- A completed trade pair of `run_macd_strategy.main`: the positions of the
buy and sell legs in the bar series, their closing prices, and
`profit = (sell_price - buy_price) / buy_price * 100`. -/
structure TradeRec where
  buyIdx : ℕ
  buyPrice : ℚ
  sellIdx : ℕ
  sellPrice : ℚ
  profitPct : ℚ
  deriving DecidableEq, Repr

/-- The rows with a nonzero signal
(`signals = strategy.data[strategy.data['信号'] != 0]`), paired with their
position in the bar series; the series is already in chronological order,
so `sort_index` is the identity. -/
def nonzeroSignals (bars : List Bar) : List (ℕ × Bar) :=
  (List.enumFrom 0 bars).filter (fun p => p.2.signal ≠ 0)

/-- The trade-pairing loop of `run_macd_strategy.main`: while at least two
entries remain, a `+1` whose immediately following nonzero signal is `-1`
forms a pair and the scan advances by 2; otherwise the scan advances
by 1. -/
def pairTrades : List (ℕ × Bar) → List TradeRec
  | (i1, b1) :: (i2, b2) :: rest =>
    if b1.signal = 1 ∧ b2.signal = -1 then
      { buyIdx := i1
        buyPrice := b1.close
        sellIdx := i2
        sellPrice := b2.close
        profitPct := (b2.close - b1.close) / b1.close * 100 } :: pairTrades rest
    else pairTrades ((i2, b2) :: rest)
  | _ => []

/-- The count of profitable trades: the pairs with `sell_price > buy_price`. -/
def profitableTrades (ts : List TradeRec) : ℕ :=
  (ts.filter (fun t => t.buyPrice < t.sellPrice)).length

/-- The win-rate computation of `run_macd_strategy.main`:
`win_rate = profitable_trades / max(1, len(trade_records)) * 100`. -/
def winRate (ts : List TradeRec) : ℚ :=
  (profitableTrades ts : ℚ) / ((max 1 ts.length : ℕ) : ℚ) * 100

/-- The example series of the spec: prices `[10, 9, 8, 12, 15]` with
signals `[0, 0, +1, 0, -1]`. -/
def exBars : List Bar :=
  [⟨10, 0⟩, ⟨9, 0⟩, ⟨8, 1⟩, ⟨12, 0⟩, ⟨15, -1⟩]

/-- Claim C5: on prices `[10, 9, 8, 12, 15]`, signals `[0, 0, +1, 0, -1]`
and initial capital 100, the backtest buys 12 shares at bar 2 leaving
cash 4, carries 12 shares through bars 3 and 4, sells at bar 4 for
cash 184, ends with total equity 184 and total return 84%, and the trade
pairing produces exactly the pair (buy at 8, sell at 15) with
return +87.5%, counted as a win. -/
theorem c5_example_scenario :
    backtest 100 exBars =
      [⟨100, 0, 0, 100⟩, ⟨100, 0, 0, 100⟩, ⟨4, 12, 96, 100⟩,
        ⟨4, 12, 144, 148⟩, ⟨184, 0, 0, 184⟩]
    ∧ totalReturn 100 184 = 84
    ∧ pairTrades (nonzeroSignals exBars) = [⟨2, 8, 4, 15, 175 / 2⟩]
    ∧ profitableTrades (pairTrades (nonzeroSignals exBars)) = 1 := by
  have hfloor : ⌊(100 : ℚ) / 8⌋ = (12 : ℤ) := by
    rw [Int.floor_eq_iff]
    norm_num
  refine ⟨?_, ?_, ?_, ?_⟩ <;>
    norm_num [backtest, btRows, btStep, pyInt, initState, mkRow, exBars,
      nonzeroSignals, pairTrades, profitableTrades, totalReturn, hfloor,
      List.enumFrom, List.filter_cons]

/-- Claim C8 (the code at the failing input): when the first and last bar
share the same date, `calculate_performance` computes `365 / days` with
`days = 0` and raises `ZeroDivisionError` instead of treating the case as
a defined edge case. -/
theorem c8_zero_elapsed_days_faults :
    annualReturnCalc 738156 738156 100000 100000 =
      Except.error "ZeroDivisionError: division by zero" := by
  rfl

theorem btRows_length (bars : List Bar) :
    ∀ s : BtState, (btRows s bars).length = bars.length := by
  induction bars with
  | nil => intro s; rfl
  | cons b rest ih => intro s; simp [btRows, ih]

theorem backtest_length (c : ℚ) (bars : List Bar) :
    (backtest c bars).length = bars.length := by
  cases bars with
  | nil => rfl
  | cons b rest => simp [backtest, btRows_length]

/-- The machine state after the loop has processed bars `1 .. i+1` of the
series that follows bar 0, starting from state `s`. -/
def stateAfter (s : BtState) (bars : List Bar) (i : ℕ) : BtState :=
  (bars.take (i + 1)).foldl btStep s

theorem btRows_get (bars : List Bar) :
    ∀ (s : BtState) (i : ℕ) (hi : i < bars.length)
      (hr : i < (btRows s bars).length),
      (btRows s bars).get ⟨i, hr⟩
        = mkRow (stateAfter s bars i) ((bars.get ⟨i, hi⟩).close) := by
  induction bars with
  | nil => intro s i hi hr; simp at hi
  | cons b rest ih =>
    intro s i hi hr
    cases i with
    | zero => simp [btRows, stateAfter]
    | succ j =>
      have hj : j < rest.length := by simpa using hi
      have hrj : j < (btRows (btStep s b) rest).length := by
        simp [btRows_length, hj]
      have hstate : stateAfter s (b :: rest) (j + 1)
          = stateAfter (btStep s b) rest j := by
        simp [stateAfter, List.take_succ_cons]
      simp only [btRows, List.get_cons_succ]
      rw [ih (btStep s b) j hj hrj, hstate]

/-- Claim C1: at every bar of the produced timeline the accounting identity
`总资产 = 资金 + 持仓 * 收盘` holds exactly, and at bar 0 the equity is the
initial capital and no shares are held. -/
theorem c1_accounting_identity (c : ℚ) (bars : List Bar)
    (hpos : ∀ b ∈ bars, 0 < b.close) (i : ℕ)
    (hi : i < bars.length) (hr : i < (backtest c bars).length) :
    (((backtest c bars).get ⟨i, hr⟩).equity
        = ((backtest c bars).get ⟨i, hr⟩).cash
          + (((backtest c bars).get ⟨i, hr⟩).shares : ℚ) * (bars.get ⟨i, hi⟩).close)
    ∧ (i = 0 → ((backtest c bars).get ⟨i, hr⟩).equity = c
        ∧ ((backtest c bars).get ⟨i, hr⟩).shares = 0) := by
  cases bars with
  | nil => simp at hi
  | cons b rest =>
    cases i with
    | zero => simp [backtest]
    | succ j =>
      have hj : j < rest.length := by simpa using hi
      have hrj : j < (btRows (initState c) rest).length := by
        simp [btRows_length, hj]
      constructor
      · simp only [backtest, List.get_cons_succ]
        rw [btRows_get rest (initState c) j hj hrj]
        simp [mkRow]
      · intro h0
        simp at h0

theorem btStep_cash_nonneg (s : BtState) (b : Bar)
    (hc : 0 ≤ s.cash) (hb : 0 < b.close) : 0 ≤ (btStep s b).cash := by
  simp only [btStep]
  split_ifs with h1 h2 h3 h4
  · have hq : (0 : ℚ) ≤ s.cash / b.close := div_nonneg hc hb.le
    have hp : pyInt (s.cash / b.close) = ⌊s.cash / b.close⌋ := if_pos hq
    rw [hp] at h2 ⊢
    have hle : ((⌊s.cash / b.close⌋ : ℤ) : ℚ) * b.close ≤ s.cash := by
      calc ((⌊s.cash / b.close⌋ : ℤ) : ℚ) * b.close
          ≤ (s.cash / b.close) * b.close :=
            mul_le_mul_of_nonneg_right (Int.floor_le _) hb.le
        _ = s.cash := div_mul_cancel₀ _ (ne_of_gt hb)
    simpa using sub_nonneg.mpr hle
  · exact hc
  · have hsh : (0 : ℚ) ≤ (s.shares : ℚ) := by exact_mod_cast h4.le
    have : (0 : ℚ) ≤ (s.shares : ℚ) * b.close := mul_nonneg hsh hb.le
    simpa using add_nonneg hc this
  · exact hc
  · exact hc

theorem btRows_cash_nonneg (bars : List Bar) :
    ∀ s : BtState, 0 ≤ s.cash → (∀ b ∈ bars, 0 < b.close) →
      ∀ r ∈ btRows s bars, 0 ≤ r.cash := by
  induction bars with
  | nil => intro s _ _ r hr; simp [btRows] at hr
  | cons b rest ih =>
    intro s hc hpos r hr
    have hstep : 0 ≤ (btStep s b).cash :=
      btStep_cash_nonneg s b hc (hpos b (by simp))
    simp only [btRows, List.mem_cons] at hr
    rcases hr with h | h
    · subst h; simpa [mkRow] using hstep
    · exact ih (btStep s b) hstep (fun x hx => hpos x (by simp [hx])) r h

/-- Claim C4: with a nonnegative initial capital and positive closes, the
cash column of the timeline is nonnegative at every bar — integer share
sizing never spends more than the available cash. -/
theorem c4_cash_nonneg (c : ℚ) (bars : List Bar) (hc : 0 ≤ c)
    (hpos : ∀ b ∈ bars, 0 < b.close) (i : ℕ)
    (hi : i < (backtest c bars).length) :
    0 ≤ ((backtest c bars).get ⟨i, hi⟩).cash := by
  cases bars with
  | nil => simp [backtest] at hi
  | cons b rest =>
    have hmem : (backtest c (b :: rest)).get ⟨i, hi⟩ ∈ backtest c (b :: rest) :=
      List.get_mem _ _ _
    simp only [backtest, List.mem_cons] at hmem
    rcases hmem with h | h
    · simp only [backtest] at h ⊢
      rw [h]
      simpa using hc
    · exact btRows_cash_nonneg rest (initState c) (by simpa [initState] using hc)
        (fun x hx => hpos x (by simp [hx])) _ h

/-- Claim C2: on a `+1` signal while flat, the engine computes
`shares_to_buy = floor(cash / close)`; when that is positive it spends
`shares_to_buy * close`, holds `shares_to_buy` shares and goes long, and
when it is zero the bar is a silent no-op that leaves the state exactly
unchanged. -/
theorem c2_buy_transition (s : BtState) (b : Bar) (hflat : s.pos = false)
    (hsig : b.signal = 1) (hc : 0 ≤ s.cash) (hb : 0 < b.close) :
    (0 < ⌊s.cash / b.close⌋ →
      btStep s b = { cash := s.cash - (⌊s.cash / b.close⌋ : ℚ) * b.close
                     shares := ⌊s.cash / b.close⌋
                     pos := true })
    ∧ (⌊s.cash / b.close⌋ = 0 → btStep s b = s) := by
  have hp : pyInt (s.cash / b.close) = ⌊s.cash / b.close⌋ :=
    if_pos (div_nonneg hc hb.le)
  constructor
  · intro hpos2
    simp [btStep, hsig, hflat, hp, hpos2]
  · intro h0
    simp [btStep, hsig, hflat, hp, h0]

/-- Claim C3: on a `-1` signal while long (the long state always holds a
positive share count), the engine liquidates the whole position at the
bar's close and returns to flat; on any other signal value, a `+1` while
already long, or a `-1` while already flat, the previous bar's cash and
shares are carried forward unchanged. -/
theorem c3_sell_and_frame (s : BtState) (b : Bar)
    (hinv : s.pos = true → 0 < s.shares) :
    (b.signal = -1 ∧ s.pos = true →
      btStep s b = { cash := s.cash + (s.shares : ℚ) * b.close
                     shares := 0
                     pos := false })
    ∧ (¬(b.signal = 1 ∧ s.pos = false) → ¬(b.signal = -1 ∧ s.pos = true) →
      btStep s b = s) := by
  constructor
  · rintro ⟨hsig, hpos2⟩
    have hsh : 0 < s.shares := hinv hpos2
    simp [btStep, hsig, hpos2, hsh]
  · intro hn1 hn2
    simp [btStep, hn1, hn2]

/-- Witness for claim C1: the accounting identity instantiated at the example
series, bar 0. -/
theorem c1_accounting_identity_witness :
    (((backtest 100 exBars).get ⟨0, by simp [backtest_length, exBars]⟩).equity
        = ((backtest 100 exBars).get ⟨0, by simp [backtest_length, exBars]⟩).cash
          + (((backtest 100 exBars).get ⟨0, by simp [backtest_length, exBars]⟩).shares : ℚ)
            * (exBars.get ⟨0, by simp [exBars]⟩).close)
    ∧ ((0 : ℕ) = 0 →
        ((backtest 100 exBars).get ⟨0, by simp [backtest_length, exBars]⟩).equity = 100
        ∧ ((backtest 100 exBars).get ⟨0, by simp [backtest_length, exBars]⟩).shares = 0) :=
  c1_accounting_identity 100 exBars (by norm_num [exBars]) 0
    (by simp [exBars]) (by simp [backtest_length, exBars])

/-- Witness for claim C2: price 1000 and cash 500 give `shares_to_buy = 0`
and a silent no-op. -/
theorem c2_buy_transition_witness :
    (0 < ⌊(500 : ℚ) / 1000⌋ →
      btStep ⟨500, 0, false⟩ ⟨1000, 1⟩
        = { cash := (500 : ℚ) - (⌊(500 : ℚ) / 1000⌋ : ℚ) * 1000
            shares := ⌊(500 : ℚ) / 1000⌋
            pos := true })
    ∧ (⌊(500 : ℚ) / 1000⌋ = 0 → btStep ⟨500, 0, false⟩ ⟨1000, 1⟩ = ⟨500, 0, false⟩) :=
  c2_buy_transition ⟨500, 0, false⟩ ⟨1000, 1⟩ rfl rfl (by norm_num) (by norm_num)

/-- Witness for claim C3: selling 12 shares at close 15 from cash 4, and the
frame condition, instantiated at that state. -/
theorem c3_sell_and_frame_witness :
    ((-1 : ℤ) = -1 ∧ true = true →
      btStep ⟨4, 12, true⟩ ⟨15, -1⟩
        = { cash := (4 : ℚ) + ((12 : ℤ) : ℚ) * 15, shares := 0, pos := false })
    ∧ (¬((-1 : ℤ) = 1 ∧ true = false) → ¬((-1 : ℤ) = -1 ∧ true = true) →
      btStep ⟨4, 12, true⟩ ⟨15, -1⟩ = ⟨4, 12, true⟩) :=
  c3_sell_and_frame ⟨4, 12, true⟩ ⟨15, -1⟩ (fun _ => by norm_num)

/-- Witness for claim C4: cash is nonnegative at bar 2 of the example run. -/
theorem c4_cash_nonneg_witness :
    0 ≤ ((backtest 100 exBars).get ⟨2, by simp [backtest_length, exBars]⟩).cash :=
  c4_cash_nonneg 100 exBars (by norm_num) (by norm_num [exBars]) 2
    (by simp [backtest_length, exBars])

theorem winRate_mem_bounds (ts : List TradeRec) :
    0 ≤ winRate ts ∧ winRate ts ≤ 100 := by
  have h1 : profitableTrades ts ≤ ts.length := List.length_filter_le _ _
  have hlen : (profitableTrades ts : ℚ) ≤ ((max 1 ts.length : ℕ) : ℚ) := by
    exact_mod_cast le_trans h1 (le_max_right 1 ts.length)
  have hposd : (0 : ℚ) < ((max 1 ts.length : ℕ) : ℚ) := by
    exact_mod_cast lt_of_lt_of_le Nat.zero_lt_one (le_max_left 1 ts.length)
  constructor
  · exact mul_nonneg (div_nonneg (Nat.cast_nonneg _) hposd.le) (by norm_num)
  · have hdiv : (profitableTrades ts : ℚ) / ((max 1 ts.length : ℕ) : ℚ) ≤ 1 :=
      (div_le_one hposd).mpr hlen
    calc winRate ts
        = (profitableTrades ts : ℚ) / ((max 1 ts.length : ℕ) : ℚ) * 100 := rfl
      _ ≤ 1 * 100 := mul_le_mul_of_nonneg_right hdiv (by norm_num)
      _ = 100 := by norm_num

/-- Claim C9: for every signal series the win rate is
`wins / max(1, total_pairs) * 100`, lies in `[0, 100]`, and is `0` (with no
division fault) when there are no completed trade pairs. -/
theorem c9_win_rate (bars : List Bar) :
    winRate (pairTrades (nonzeroSignals bars))
      = (profitableTrades (pairTrades (nonzeroSignals bars)) : ℚ)
        / ((max 1 (pairTrades (nonzeroSignals bars)).length : ℕ) : ℚ) * 100
    ∧ 0 ≤ winRate (pairTrades (nonzeroSignals bars))
    ∧ winRate (pairTrades (nonzeroSignals bars)) ≤ 100
    ∧ (pairTrades (nonzeroSignals bars) = [] →
        winRate (pairTrades (nonzeroSignals bars)) = 0) := by
  refine ⟨rfl, (winRate_mem_bounds _).1, (winRate_mem_bounds _).2, ?_⟩
  intro hnil
  rw [hnil]
  simp [winRate, profitableTrades]

/-- Witness for claim C9 at the empty signal series. -/
theorem c9_win_rate_witness :
    winRate (pairTrades (nonzeroSignals []))
      = (profitableTrades (pairTrades (nonzeroSignals [])) : ℚ)
        / ((max 1 (pairTrades (nonzeroSignals [])).length : ℕ) : ℚ) * 100
    ∧ 0 ≤ winRate (pairTrades (nonzeroSignals []))
    ∧ winRate (pairTrades (nonzeroSignals [])) ≤ 100
    ∧ (pairTrades (nonzeroSignals []) = [] →
        winRate (pairTrades (nonzeroSignals [])) = 0) :=
  c9_win_rate []

theorem pairTrades_decomp :
    ∀ (n : ℕ) (l : List (ℕ × Bar)), l.length ≤ n → ∀ t ∈ pairTrades l,
      ∃ b1 b2 pre post,
        l = pre ++ (t.buyIdx, b1) :: (t.sellIdx, b2) :: post
        ∧ b1.signal = 1 ∧ b2.signal = -1
        ∧ t.buyPrice = b1.close ∧ t.sellPrice = b2.close
        ∧ t.profitPct = (b2.close - b1.close) / b1.close * 100 := by
  intro n
  induction n with
  | zero =>
    intro l hl t ht
    have hnil : l = [] := List.length_eq_zero.mp (Nat.le_zero.mp hl)
    subst hnil
    simp [pairTrades] at ht
  | succ m ih =>
    intro l hl t ht
    match l with
    | [] => simp [pairTrades] at ht
    | [(i1, b1)] => simp [pairTrades] at ht
    | (i1, b1) :: (i2, b2) :: rest =>
      by_cases hcond : b1.signal = 1 ∧ b2.signal = -1
      · simp only [pairTrades, if_pos hcond] at ht
        rcases List.mem_cons.mp ht with heq | hmem
        · subst heq
          exact ⟨b1, b2, [], rest, by simp, hcond.1, hcond.2, rfl, rfl, rfl⟩
        · have hlen : rest.length ≤ m := by
            simp only [List.length_cons] at hl; omega
          obtain ⟨c1, c2, pre, post, hdec, h1, h2, h3, h4, h5⟩ := ih rest hlen t hmem
          exact ⟨c1, c2, (i1, b1) :: (i2, b2) :: pre, post, by simp [hdec],
            h1, h2, h3, h4, h5⟩
      · simp only [pairTrades, if_neg hcond] at ht
        have hlen : ((i2, b2) :: rest).length ≤ m := by
          simp only [List.length_cons] at hl ⊢; omega
        obtain ⟨c1, c2, pre, post, hdec, h1, h2, h3, h4, h5⟩ := ih _ hlen t ht
        exact ⟨c1, c2, (i1, b1) :: pre, post, by simp [hdec], h1, h2, h3, h4, h5⟩

theorem enumFrom_pairwise_fst_lt (l : List Bar) :
    ∀ n : ℕ, (List.enumFrom n l).Pairwise (fun p q => p.1 < q.1) := by
  induction l with
  | nil => intro n; simp
  | cons b rest ih =>
    intro n
    rw [List.enumFrom_cons]
    refine List.Pairwise.cons (fun q hq => ?_) (ih (n + 1))
    have := List.le_fst_of_mem_enumFrom hq
    simp only [] at this ⊢
    omega

theorem nonzeroSignals_pairwise (bars : List Bar) :
    (nonzeroSignals bars).Pairwise (fun p q => p.1 < q.1) :=
  (enumFrom_pairwise_fst_lt bars 0).filter _

theorem nonzeroSignals_mem (bars : List Bar) (i : ℕ) (b : Bar)
    (h : (i, b) ∈ nonzeroSignals bars) :
    ∃ hi : i < bars.length, bars.get ⟨i, hi⟩ = b := by
  have h2 : (i, b) ∈ List.enumFrom 0 bars := List.mem_of_mem_filter h
  obtain ⟨-, h4⟩ := List.mk_mem_enumFrom_iff_le_and_getElem?_sub.mp h2
  rw [Nat.sub_zero] at h4
  obtain ⟨hi, hb⟩ := List.getElem?_eq_some_iff.mp h4
  exact ⟨hi, by simpa [List.get_eq_getElem] using hb⟩

/-- Claim C10: every trade record's buy leg lies strictly earlier in the bar
series than its sell leg; the buy leg carries signal `+1` and the recorded
buy price, the sell leg carries signal `-1` and the recorded sell price; in
particular no record is formed from a `-1` preceding its `+1`. -/
theorem c10_trade_record_order (bars : List Bar) (t : TradeRec)
    (ht : t ∈ pairTrades (nonzeroSignals bars)) :
    t.buyIdx < t.sellIdx
    ∧ (∃ hb : t.buyIdx < bars.length,
        (bars.get ⟨t.buyIdx, hb⟩).signal = 1
        ∧ (bars.get ⟨t.buyIdx, hb⟩).close = t.buyPrice)
    ∧ ∃ hs : t.sellIdx < bars.length,
        (bars.get ⟨t.sellIdx, hs⟩).signal = -1
        ∧ (bars.get ⟨t.sellIdx, hs⟩).close = t.sellPrice := by
  obtain ⟨b1, b2, pre, post, hdec, h1, h2, h3, h4, -⟩ :=
    pairTrades_decomp (nonzeroSignals bars).length (nonzeroSignals bars) le_rfl t ht
  have hpw : (nonzeroSignals bars).Pairwise (fun p q => p.1 < q.1) :=
    nonzeroSignals_pairwise bars
  have hlt : t.buyIdx < t.sellIdx := by
    rw [hdec] at hpw
    have hpost := (List.pairwise_append.mp hpw).2.1
    exact (List.pairwise_cons.mp hpost).1 (t.sellIdx, b2) (by simp)
  have hmb : (t.buyIdx, b1) ∈ nonzeroSignals bars := by rw [hdec]; simp
  have hms : (t.sellIdx, b2) ∈ nonzeroSignals bars := by rw [hdec]; simp
  obtain ⟨hib, hgb⟩ := nonzeroSignals_mem bars _ _ hmb
  obtain ⟨his, hgs⟩ := nonzeroSignals_mem bars _ _ hms
  refine ⟨hlt, ⟨hib, ?_, ?_⟩, ⟨his, ?_, ?_⟩⟩
  · rw [hgb]; exact h1
  · rw [hgb]; exact h3.symm
  · rw [hgs]; exact h2
  · rw [hgs]; exact h4.symm

/-- Witness for claim C10 at the single trade pair of the example series. -/
theorem c10_trade_record_order_witness :
    (2 : ℕ) < 4
    ∧ (∃ hb : (2 : ℕ) < exBars.length,
        (exBars.get ⟨2, hb⟩).signal = 1 ∧ (exBars.get ⟨2, hb⟩).close = 8)
    ∧ ∃ hs : (4 : ℕ) < exBars.length,
        (exBars.get ⟨4, hs⟩).signal = -1 ∧ (exBars.get ⟨4, hs⟩).close = 15 :=
  c10_trade_record_order exBars ⟨2, 8, 4, 15, 175 / 2⟩ (by
    norm_num [exBars, nonzeroSignals, List.enumFrom, List.filter_cons, pairTrades])

/-- Scanner for the claim-side pairing reading: the first argument holds the
first `+1` still waiting for its `-1`, if any.  While a `+1` is pending,
every later signal that is not `-1` is skipped (in particular further
`+1` entries), and the next `-1` closes the pair; scanning then continues
after that `-1`. -/
def claimPairingGo : Option (ℕ × Bar) → List (ℕ × Bar) → List TradeRec
  | _, [] => []
  | none, (i, b) :: rest =>
    if b.signal = 1 then claimPairingGo (some (i, b)) rest
    else claimPairingGo none rest
  | some (i0, b0), (i, b) :: rest =>
    if b.signal = -1 then
      { buyIdx := i0
        buyPrice := b0.close
        sellIdx := i
        sellPrice := b.close
        profitPct := (b.close - b0.close) / b0.close * 100 }
        :: claimPairingGo none rest
    else claimPairingGo (some (i0, b0)) rest

/-- Pairing as claim C7 words it (the refinement comparison, built from the
claim's sentence rather than the source): each trade pair takes the first
`+1` and the next `-1` that follows it later in the series, skipping the
signals in between; a `+1` with no subsequent `-1` is left unpaired. -/
def claimPairing (l : List (ℕ × Bar)) : List TradeRec :=
  claimPairingGo none l

/-- The C7 counterexample signal pattern: nonzero signals `+1` (close 10),
`+1` (close 20), `-1` (close 30) at bars 0, 1, 2. -/
def c7Bars : List Bar := [⟨10, 1⟩, ⟨20, 1⟩, ⟨30, -1⟩]

/-- Counterexample to claim C7 as stated: on consecutive `+1, +1, -1`
nonzero signals, the code pairs the SECOND `+1` (close 20) with the `-1`
(return 50%), while the claim's wording pairs the FIRST `+1` (close 10)
with it, skipping the one in between (return 200%). -/
theorem c7_counterexample :
    pairTrades (nonzeroSignals c7Bars) = [⟨1, 20, 2, 30, 50⟩]
    ∧ claimPairing (nonzeroSignals c7Bars) = [⟨0, 10, 2, 30, 200⟩]
    ∧ pairTrades (nonzeroSignals c7Bars) ≠ claimPairing (nonzeroSignals c7Bars) := by
  refine ⟨?_, ?_, ?_⟩ <;>
    norm_num [c7Bars, nonzeroSignals, List.enumFrom, List.filter_cons,
      pairTrades, claimPairing, claimPairingGo]

/-- Claim C7 (amended): every trade pair is formed from two ADJACENT entries
of the nonzero-signal sequence — a `+1` whose immediately following
nonzero signal is a `-1` (the scan advances by 2 on a match and by 1
otherwise, so a `+1` followed by another `+1` is dropped unpaired and a
trailing unmatched `+1` is excluded) — and each pair's recorded return is
`(sell_price - buy_price) / buy_price * 100`. -/
theorem c7_amended_adjacent_pairing (l : List (ℕ × Bar)) (t : TradeRec)
    (ht : t ∈ pairTrades l) :
    ∃ b1 b2 pre post,
      l = pre ++ (t.buyIdx, b1) :: (t.sellIdx, b2) :: post
      ∧ b1.signal = 1 ∧ b2.signal = -1
      ∧ t.buyPrice = b1.close ∧ t.sellPrice = b2.close
      ∧ t.profitPct = (t.sellPrice - t.buyPrice) / t.buyPrice * 100 := by
  obtain ⟨b1, b2, pre, post, hdec, h1, h2, h3, h4, h5⟩ :=
    pairTrades_decomp l.length l le_rfl t ht
  exact ⟨b1, b2, pre, post, hdec, h1, h2, h3, h4, by rw [h3, h4]; exact h5⟩

/-- Witness for the amended claim C7 at the counterexample series. -/
theorem c7_amended_adjacent_pairing_witness :
    ∃ b1 b2 pre post,
      nonzeroSignals c7Bars
        = pre ++ ((1 : ℕ), b1) :: ((2 : ℕ), b2) :: post
      ∧ b1.signal = 1 ∧ b2.signal = -1
      ∧ (20 : ℚ) = b1.close ∧ (30 : ℚ) = b2.close
      ∧ (50 : ℚ) = ((30 : ℚ) - 20) / 20 * 100 :=
  c7_amended_adjacent_pairing (nonzeroSignals c7Bars) ⟨1, 20, 2, 30, 50⟩ (by
    norm_num [c7Bars, nonzeroSignals, List.enumFrom, List.filter_cons, pairTrades])

/-- The `总资产` column of the produced timeline as a series. -/
def equitySeries (c : ℚ) (bars : List Bar) : List ℚ :=
  (backtest c bars).map PortfolioRow.equity

theorem le_foldl_max (l : List ℚ) : ∀ x : ℚ, x ≤ l.foldl max x := by
  induction l with
  | nil => intro x; simp
  | cons y ys ih =>
    intro x
    simp only [List.foldl_cons]
    exact le_trans (le_max_left x y) (ih (max x y))

theorem mem_le_foldl_max (l : List ℚ) :
    ∀ x y : ℚ, y ∈ l → y ≤ l.foldl max x := by
  induction l with
  | nil => intro x y h; simp at h
  | cons z zs ih =>
    intro x y h
    simp only [List.foldl_cons]
    rcases List.mem_cons.mp h with rfl | hmem
    · exact le_trans (le_max_right x y) (le_foldl_max zs _)
    · exact ih _ y hmem

theorem foldl_min_le_init (l : List ℚ) : ∀ x : ℚ, l.foldl min x ≤ x := by
  induction l with
  | nil => intro x; simp
  | cons y ys ih =>
    intro x
    simp only [List.foldl_cons]
    exact le_trans (ih (min x y)) (min_le_left x y)

theorem foldl_min_le_mem (l : List ℚ) :
    ∀ x y : ℚ, y ∈ l → l.foldl min x ≤ y := by
  induction l with
  | nil => intro x y h; simp at h
  | cons z zs ih =>
    intro x y h
    simp only [List.foldl_cons]
    rcases List.mem_cons.mp h with rfl | hmem
    · exact le_trans (foldl_min_le_init zs _) (min_le_right x y)
    · exact ih _ y hmem

theorem foldl_min_choice (l : List ℚ) :
    ∀ x : ℚ, l.foldl min x = x ∨ l.foldl min x ∈ l := by
  induction l with
  | nil => intro x; left; rfl
  | cons y ys ih =>
    intro x
    simp only [List.foldl_cons]
    rcases ih (min x y) with h | h
    · rcases min_choice x y with hc | hc
      · left; rw [h, hc]
      · right; rw [h, hc]; exact List.mem_cons_self _ _
    · right; exact List.mem_cons_of_mem _ h

theorem cummaxFrom_length (l : List ℚ) :
    ∀ m : ℚ, (cummaxFrom m l).length = l.length := by
  induction l with
  | nil => intro m; rfl
  | cons x xs ih => intro m; simp [cummaxFrom, ih]

theorem cummax_length (l : List ℚ) : (cummax l).length = l.length := by
  cases l with
  | nil => rfl
  | cons x xs => simp [cummax, cummaxFrom_length]

theorem cummaxFrom_getElem (l : List ℚ) :
    ∀ (m : ℚ) (i : ℕ), i < l.length →
      ∀ hr : i < (cummaxFrom m l).length,
        (cummaxFrom m l).get ⟨i, hr⟩ = (l.take (i + 1)).foldl max m := by
  induction l with
  | nil => intro m i h hr; simp at h
  | cons x xs ih =>
    intro m i h hr
    cases i with
    | zero => simp [cummaxFrom]
    | succ j =>
      have hj : j < xs.length := by simpa using h
      have hrj : j < (cummaxFrom (max m x) xs).length := by
        simp [cummaxFrom_length, hj]
      simp only [cummaxFrom, List.get_cons_succ]
      rw [ih (max m x) j hj hrj]
      simp [List.take_succ_cons]

theorem cummax_getElem (l : List ℚ) (i : ℕ) (h : i < l.length)
    (hr : i < (cummax l).length) :
    (cummax l).get ⟨i, hr⟩ = prefixMax l i := by
  cases l with
  | nil => simp at h
  | cons x xs =>
    cases i with
    | zero => simp [cummax, prefixMax]
    | succ j =>
      have hj : j < xs.length := by simpa using h
      have hrj : j < (cummaxFrom x xs).length := by
        simp [cummaxFrom_length, hj]
      simp only [cummax, List.get_cons_succ]
      rw [cummaxFrom_getElem xs x j hj hrj]
      rfl

theorem get_le_prefixMax (l : List ℚ) (i : ℕ) (h : i < l.length) :
    l.get ⟨i, h⟩ ≤ prefixMax l i := by
  cases l with
  | nil => simp at h
  | cons x xs =>
    cases i with
    | zero => simp [prefixMax]
    | succ j =>
      have hj : j < xs.length := by simpa using h
      have hjt : j < (xs.take (j + 1)).length := by
        simp [List.length_take]
        omega
      have hmem : xs.get ⟨j, hj⟩ ∈ xs.take (j + 1) := by
        have hgt : (xs.take (j + 1)).get ⟨j, hjt⟩ = xs.get ⟨j, hj⟩ := by
          simp [List.get_eq_getElem, List.getElem_take]
        rw [← hgt]
        exact List.get_mem _ _ _
      simpa [prefixMax] using mem_le_foldl_max (xs.take (j + 1)) x _ hmem

theorem prefixMax_succ (x : ℚ) (xs : List ℚ) (j : ℕ) (hj : j < xs.length) :
    prefixMax (x :: xs) (j + 1) = max (prefixMax (x :: xs) j) (xs.get ⟨j, hj⟩) := by
  have htake : xs.take (j + 1) = xs.take j ++ [xs.get ⟨j, hj⟩] := by
    rw [List.get_eq_getElem]
    exact (List.take_concat_get' xs j hj).symm
  simp only [prefixMax]
  rw [htake, List.foldl_append]
  rfl

theorem drawdowns_length (es : List ℚ) : (drawdowns es).length = es.length := by
  simp [drawdowns, cummax_length]

theorem drawdowns_getElem (es : List ℚ) (i : ℕ) (h : i < es.length)
    (hd : i < (drawdowns es).length) :
    (drawdowns es).get ⟨i, hd⟩
      = (es.get ⟨i, h⟩ - prefixMax es i) / prefixMax es i * 100 := by
  have hc : i < (cummax es).length := by rw [cummax_length]; exact h
  simp only [drawdowns, List.get_eq_getElem, List.getElem_zipWith]
  rw [← List.get_eq_getElem (cummax es) ⟨i, hc⟩, cummax_getElem es i h hc]

theorem drawdown_nonpos (e p : ℚ) (hp : 0 < p) (hle : e ≤ p) :
    (e - p) / p * 100 ≤ 0 := by
  have h1 : (e - p) / p ≤ 0 :=
    div_nonpos_iff.mpr (Or.inr ⟨sub_nonpos.mpr hle, hp.le⟩)
  have h2 : (e - p) / p * 100 ≤ 0 * 100 :=
    mul_le_mul_of_nonneg_right h1 (by norm_num)
  simpa using h2

theorem drawdown_eq_zero_iff (e p : ℚ) (hp : 0 < p) :
    (e - p) / p * 100 = 0 ↔ e = p := by
  constructor
  · intro h
    have h1 : (e - p) / p = 0 := by
      rcases mul_eq_zero.mp h with h2 | h2
      · exact h2
      · norm_num at h2
    rcases div_eq_zero_iff.mp h1 with h2 | h2
    · linarith [sub_eq_zero.mp h2]
    · exact absurd h2 (ne_of_gt hp)
  · intro h
    rw [h]
    simp

theorem maxDrawdown_spec (x : ℚ) (xs : List ℚ) (hx : 0 < x) :
    maxDrawdown (x :: xs)
      = listMin ((List.range (x :: xs).length).map
          (fun i => ((x :: xs).getD i 0 - prefixMax (x :: xs) i)
            / prefixMax (x :: xs) i * 100))
    ∧ ∃ m, maxDrawdown (x :: xs) = some m ∧ m ≤ 0
        ∧ (m = 0 ↔ List.Chain' (· ≤ ·) (x :: xs)) := by
  have hprefix_pos : ∀ i : ℕ, 0 < prefixMax (x :: xs) i :=
    fun i => lt_of_lt_of_le hx (le_foldl_max (xs.take i) x)
  have hd_le : ∀ (i : ℕ) (h : i < (x :: xs).length)
      (hd : i < (drawdowns (x :: xs)).length),
      (drawdowns (x :: xs)).get ⟨i, hd⟩ ≤ 0 := by
    intro i h hd
    rw [drawdowns_getElem _ i h hd]
    exact drawdown_nonpos _ _ (hprefix_pos i) (get_le_prefixMax _ i h)
  have hdd : drawdowns (x :: xs)
      = 0 :: List.zipWith (fun e p => (e - p) / p * 100) xs (cummaxFrom x xs) := by
    simp [drawdowns, cummax]
  have hmapeq : (List.range (x :: xs).length).map
      (fun i => ((x :: xs).getD i 0 - prefixMax (x :: xs) i)
        / prefixMax (x :: xs) i * 100) = drawdowns (x :: xs) := by
    refine List.ext_get (by simp [drawdowns_length]) ?_
    intro n h1 h2
    have hn : n < (x :: xs).length := by
      have := h2
      rw [drawdowns_length] at this
      exact this
    have hgd : (x :: xs).getD n 0 = (x :: xs).get ⟨n, hn⟩ := by
      simp [List.getD_eq_getElem?_getD, List.getElem?_eq_getElem hn,
        List.get_eq_getElem]
    rw [drawdowns_getElem (x :: xs) n hn h2]
    simp only [List.get_eq_getElem, List.getElem_map, List.getElem_range]
    rw [hgd]
    simp [List.get_eq_getElem]
  have hgeall : ∀ y ∈ drawdowns (x :: xs),
      (List.zipWith (fun e p => (e - p) / p * 100) xs
        (cummaxFrom x xs)).foldl min 0 ≤ y := by
    intro y hy
    rw [hdd] at hy
    rcases List.mem_cons.mp hy with he | hmem2
    · rw [he]; exact foldl_min_le_init _ 0
    · exact foldl_min_le_mem _ 0 _ hmem2
  refine ⟨by rw [hmapeq]; rfl, (List.zipWith (fun e p => (e - p) / p * 100) xs
    (cummaxFrom x xs)).foldl min 0, ?_, ?_, ?_⟩
  · show listMin (drawdowns (x :: xs)) = _
    rw [hdd]
    rfl
  · exact foldl_min_le_init _ 0
  · constructor
    · intro hm0
      have hall : ∀ (i : ℕ) (h : i < (x :: xs).length)
          (hd : i < (drawdowns (x :: xs)).length),
          (drawdowns (x :: xs)).get ⟨i, hd⟩ = 0 := by
        intro i h hd
        have hle0 := hd_le i h hd
        have hge := hgeall ((drawdowns (x :: xs)).get ⟨i, hd⟩) (List.get_mem _ _ _)
        rw [hm0] at hge
        exact le_antisymm hle0 hge
      have heq : ∀ (i : ℕ) (h : i < (x :: xs).length),
          (x :: xs).get ⟨i, h⟩ = prefixMax (x :: xs) i := by
        intro i h
        have hd : i < (drawdowns (x :: xs)).length := by
          rw [drawdowns_length]; exact h
        have h0 := hall i h hd
        rw [drawdowns_getElem _ i h hd] at h0
        exact (drawdown_eq_zero_iff _ _ (hprefix_pos i)).mp h0
      rw [List.chain'_iff_get]
      intro i hi
      have hi1 : i + 1 < (x :: xs).length := by
        simp only [List.length_cons] at hi ⊢
        omega
      have hi0 : i < (x :: xs).length := lt_trans (Nat.lt_succ_self i) hi1
      have hji : i < xs.length := by simpa using hi1
      rw [heq i hi0, heq (i + 1) hi1]
      rw [prefixMax_succ x xs i hji]
      exact le_max_left _ _
    · intro hchain
      have hpm : ∀ i : ℕ, ∀ h : i < (x :: xs).length,
          prefixMax (x :: xs) i = (x :: xs).get ⟨i, h⟩ := by
        intro i
        induction i with
        | zero => intro h; rfl
        | succ j ihj =>
          intro h
          have hji : j < xs.length := by simpa using h
          have hj0 : j < (x :: xs).length := lt_trans (Nat.lt_succ_self j) h
          have hle := List.chain'_iff_get.mp hchain j (by
            simp only [List.length_cons] at h ⊢
            omega)
          rw [prefixMax_succ x xs j hji, ihj hj0]
          have hg : xs.get ⟨j, hji⟩ = (x :: xs).get ⟨j + 1, h⟩ := rfl
          rw [hg]
          exact max_eq_right hle
      have hall0 : ∀ d ∈ drawdowns (x :: xs), d = 0 := by
        intro d hdm
        obtain ⟨i, hd, hdi⟩ := List.mem_iff_getElem.mp hdm
        have h : i < (x :: xs).length := by
          rw [drawdowns_length] at hd; exact hd
        have hget : (drawdowns (x :: xs)).get ⟨i, hd⟩ = d := by
          rw [List.get_eq_getElem]; exact hdi
        rw [← hget, drawdowns_getElem _ i h hd, ← hpm i h]
        simp
      rcases foldl_min_choice (List.zipWith (fun e p => (e - p) / p * 100) xs
        (cummaxFrom x xs)) 0 with h | h
      · exact h
      · exact hall0 _ (by rw [hdd]; exact List.mem_cons_of_mem _ h)

/-- Claim C6: the `max_drawdown` metric equals the minimum over all bars of
`(总资产[i] - max(总资产[0..i])) / max(总资产[0..i]) * 100`; with positive
initial capital it is never positive, and it is `0` exactly when the equity
series is non-decreasing throughout. -/
theorem c6_max_drawdown (c : ℚ) (bars : List Bar) (hc : 0 < c)
    (hne : bars ≠ []) :
    maxDrawdown (equitySeries c bars)
      = listMin ((List.range (equitySeries c bars).length).map
          (fun i => ((equitySeries c bars).getD i 0 - prefixMax (equitySeries c bars) i)
            / prefixMax (equitySeries c bars) i * 100))
    ∧ ∃ m, maxDrawdown (equitySeries c bars) = some m ∧ m ≤ 0
        ∧ (m = 0 ↔ List.Chain' (· ≤ ·) (equitySeries c bars)) := by
  cases bars with
  | nil => exact absurd rfl hne
  | cons b rest =>
    have hes : equitySeries c (b :: rest)
        = c :: (btRows (initState c) rest).map PortfolioRow.equity := by
      simp [equitySeries, backtest]
    rw [hes]
    exact maxDrawdown_spec c _ hc

/-- Witness for claim C6 at the example run with initial capital 100. -/
theorem c6_max_drawdown_witness :
    maxDrawdown (equitySeries 100 exBars)
      = listMin ((List.range (equitySeries 100 exBars).length).map
          (fun i => ((equitySeries 100 exBars).getD i 0 - prefixMax (equitySeries 100 exBars) i)
            / prefixMax (equitySeries 100 exBars) i * 100))
    ∧ ∃ m, maxDrawdown (equitySeries 100 exBars) = some m ∧ m ≤ 0
        ∧ (m = 0 ↔ List.Chain' (· ≤ ·) (equitySeries 100 exBars)) :=
  c6_max_drawdown 100 exBars (by norm_num) (by simp [exBars])

end StockMarket
